import Mathlib

/-!
Shallow embedding of `packages/markitdown/src/markitdown/_uri_utils.py`
(functions `file_uri_to_path` and `parse_data_uri`) together with the parts
of the Python standard library they call: `urllib.parse.urlsplit`,
`urllib.parse.unquote_to_bytes`, `urllib.request.url2pathname` (POSIX),
`posixpath.abspath` / `posixpath.normpath` / `posixpath.join`, and
`base64.b64decode` (which delegates to `binascii.a2b_base64` in
non-strict mode).

Convention: Python strings are modelled at byte level as `List Nat`, one
entry per byte (`strB` converts an ASCII Lean string literal).  For ASCII
data this is exact; percent-escapes that decode to bytes ≥ 0x80 are kept as
raw bytes (CPython's `unquote` would additionally UTF-8-decode them with
replacement, a step outside the byte-level convention and outside every
claim considered here).
-/

/-- Byte strings: one `Nat` per byte. -/
abbrev Bytes := List Nat

/-- Convert an ASCII string literal to its byte list. -/
def strB (s : String) : Bytes := s.data.map Char.toNat

/-- The errors the two decoders can surface.  `invalidScheme`,
`notADataURI` and `malformedDataURI` are the `ValueError`s raised directly
in `_uri_utils.py`; `invalidBase64` is the `binascii.Error` escaping from
`base64.b64decode`; `invalidIPv6URL` is the `ValueError("Invalid IPv6
URL")` raised inside `urllib.parse.urlsplit` for an authority with an
unbalanced bracket. -/
inductive UriError where
  | invalidScheme
  | notADataURI
  | malformedDataURI
  | invalidBase64
  | invalidIPv6URL
  deriving DecidableEq

/-- ASCII letter test, as Python `str.isalpha` restricted to ASCII. -/
def isAsciiAlpha (c : Nat) : Bool :=
  (65 ≤ c && c ≤ 90) || (97 ≤ c && c ≤ 122)

/-- Membership in `urllib.parse.scheme_chars`
(letters, digits, and the three bytes of the string of plus, minus, dot). -/
def isSchemeChar (c : Nat) : Bool :=
  isAsciiAlpha c || (48 ≤ c && c ≤ 57) || c == 43 || c == 45 || c == 46

/-- Python `str.lower` restricted to ASCII bytes (the only bytes that can
appear in a valid scheme). -/
def asciiLower (c : Nat) : Nat := if 65 ≤ c ∧ c ≤ 90 then c + 32 else c

/-- Split a byte string at the FIRST occurrence of `sep`, like Python
`str.partition`: `some (before, after)` when `sep` occurs, `none`
otherwise. -/
def splitFirstByte (sep : Nat) (s : Bytes) : Option (Bytes × Bytes) :=
  if s.contains sep then
    some (s.takeWhile (fun c => !(c == sep)), (s.dropWhile (fun c => !(c == sep))).tail)
  else none

/-- Python `str.split(sep)` for a one-byte separator: always returns at
least one (possibly empty) piece. -/
def splitOnByte (sep : Nat) : Bytes → List Bytes
  | [] => [[]]
  | c :: rest =>
    if c == sep then [] :: splitOnByte sep rest
    else
      match splitOnByte sep rest with
      | s :: ss => (c :: s) :: ss
      | [] => [[c]]

/-- `scheme, url = url[:i].lower(), url[i+1:]` portion of
`urllib.parse.urlsplit` (CPython 3.11): the text before the first colon is
a scheme when the colon is not first, the first byte is an ASCII letter
and every byte is a scheme char; the scheme is lowercased. -/
def splitScheme (url : Bytes) : Bytes × Bytes :=
  if url.dropWhile (fun c => !(c == 58)) = [] then ([], url)
  else if url.takeWhile (fun c => !(c == 58)) = [] then ([], url)
  else if isAsciiAlpha ((url.takeWhile (fun c => !(c == 58))).headI) &&
          (url.takeWhile (fun c => !(c == 58))).all isSchemeChar then
    ((url.takeWhile (fun c => !(c == 58))).map asciiLower,
     (url.dropWhile (fun c => !(c == 58))).tail)
  else ([], url)

/-- `urllib.parse._splitnetloc` with `start = 2` already applied: cut the
authority at the first slash, question mark or hash. -/
def splitNetloc (url : Bytes) : Bytes × Bytes :=
  (url.takeWhile (fun c => !(c == 47 || c == 63 || c == 35)),
   url.dropWhile (fun c => !(c == 47 || c == 63 || c == 35)))

/-- `url.split(c, 1)` with a default of the empty string for the missing
second half, as used for the fragment and query cuts in `urlsplit`. -/
def cutAtByte (sep : Nat) (s : Bytes) : Bytes × Bytes :=
  match splitFirstByte sep s with
  | some (a, b) => (a, b)
  | none => (s, [])

/-- Result of `urllib.parse.urlsplit` (query and fragment are carried for
faithfulness although `file_uri_to_path` never reads them). -/
structure SplitResult where
  scheme : Bytes
  netloc : Bytes
  path : Bytes
  query : Bytes
  fragment : Bytes
  deriving DecidableEq

/-- `urllib.parse.urlsplit` (CPython 3.11, default arguments): strip
leading C0-control-or-space bytes, remove tab/CR/LF everywhere, extract a
lowercased scheme, cut the `//authority`, reject an authority with an
unbalanced square bracket (`ValueError("Invalid IPv6 URL")`), then cut the
fragment (first hash) and the query (first question mark).

Not modelled: `_check_bracketed_host` (extra validation of a
balanced-bracket authority, absent from CPython 3.10) and `_checknetloc`
(a no-op for pure-ASCII authorities).  Both can only turn additional
exotic-authority inputs into errors; they never change a successful
result.  The model is split into named stages: `urlsplitPre` (the
whitespace/unsafe-byte preprocessing), `urlsplitCore` (the total
splitting pipeline) and `urlsplit` (the bracket validation on top). -/
def urlsplitPre (url0 : Bytes) : Bytes :=
  (url0.dropWhile (fun c => c ≤ 32)).filter (fun c => !(c == 9 || c == 13 || c == 10))

/-- The unbalanced-bracket test `urlsplit` applies to the authority. -/
def badBrackets (netloc : Bytes) : Bool :=
  (netloc.contains 91 && !netloc.contains 93) ||
  (netloc.contains 93 && !netloc.contains 91)

/-- The splitting pipeline of `urlsplit` (always total): scheme, then
`//authority`, then fragment at the first hash, then query at the first
question mark.  The bracket validation sits on top in `urlsplit`; it only
reads the authority, so hoisting it out of the middle of the pipeline
does not change any result. -/
def urlsplitCore (url0 : Bytes) : SplitResult :=
  let sp := splitScheme (urlsplitPre url0)
  let nu := if sp.2.take 2 = [47, 47] then splitNetloc (sp.2.drop 2) else ([], sp.2)
  let uf := cutAtByte 35 nu.2
  let uq := cutAtByte 63 uf.1
  ⟨sp.1, nu.1, uq.1, uq.2, uf.2⟩

def urlsplit (url0 : Bytes) : Except UriError SplitResult :=
  if badBrackets (urlsplitCore url0).netloc then .error .invalidIPv6URL
  else .ok (urlsplitCore url0)

/-- Hex digit test for percent escapes (`urllib.parse._hextobyte` keys:
both lower and upper case). -/
def isHexDigit (c : Nat) : Bool :=
  (48 ≤ c && c ≤ 57) || (65 ≤ c && c ≤ 70) || (97 ≤ c && c ≤ 102)

/-- Value of a hex digit byte. -/
def hexVal (c : Nat) : Nat :=
  if c ≤ 57 then c - 48 else if c ≤ 70 then c - 55 else c - 87

/-- Byte-level percent decoding: `urllib.parse.unquote_to_bytes`, and also
the byte-level content of `urllib.request.url2pathname` on POSIX (which is
`urllib.parse.unquote`).  A percent byte followed by two hex digits
becomes the escaped byte; any other percent byte is kept literally;
everything else passes through. -/
def percentDecode : Bytes → Bytes
  | [] => []
  | 37 :: a :: b :: rest =>
    if isHexDigit a && isHexDigit b then
      (hexVal a * 16 + hexVal b) :: percentDecode rest
    else 37 :: percentDecode (a :: b :: rest)
  | 37 :: rest => 37 :: percentDecode rest
  | c :: rest => c :: percentDecode rest

/-- `posixpath.isabs`. -/
def isabs (p : Bytes) : Bool := p.take 1 = [47]

/-- `posixpath.join` for exactly two arguments, as called by
`posixpath.abspath`. -/
def pathJoin (a b : Bytes) : Bytes :=
  if b.take 1 = [47] then b
  else if a = [] ∨ a.getLast? = some 47 then a ++ b
  else a ++ 47 :: b

/-- The component loop of `posixpath.normpath`: skip empty and dot
components; append a component unless it is a dotdot that cancels against
a previous real component; the accumulator is kept reversed. -/
def normLoop (initialSlashes : Bool) : List Bytes → List Bytes → List Bytes
  | [], acc => acc.reverse
  | comp :: rest, acc =>
    if comp = [] ∨ comp = [46] then normLoop initialSlashes rest acc
    else if comp ≠ [46, 46] ∨ (initialSlashes = false ∧ acc = []) ∨
            acc.head? = some [46, 46] then
      normLoop initialSlashes rest (comp :: acc)
    else
      match acc with
      | [] => normLoop initialSlashes rest []
      | _ :: accTail => normLoop initialSlashes rest accTail

/-- Python `sep.join(pieces)` for a one-byte separator. -/
def joinWith (sep : Nat) : List Bytes → Bytes
  | [] => []
  | [c] => c
  | c :: cs => c ++ sep :: joinWith sep cs

/-- `posixpath.normpath` (pure-Python version): collapse duplicate
slashes, drop dot components, cancel dotdot components lexically; one or
two leading slashes are preserved, three or more collapse to one. -/
def normpath (path : Bytes) : Bytes :=
  if path = [] then [46]
  else
    let initialSlashes : Nat :=
      if path.take 1 = [47] then
        if path.take 2 = [47, 47] ∧ path.take 3 ≠ [47, 47, 47] then 2 else 1
      else 0
    let comps := splitOnByte 47 path
    let newComps := normLoop (initialSlashes ≠ 0) comps []
    let joined := List.replicate initialSlashes 47 ++ joinWith 47 newComps
    if joined = [] then [46] else joined

/-- `posixpath.abspath`, with the process working directory `cwd` made an
explicit argument (the source reads it via `os.getcwd()`). -/
def abspath (cwd p : Bytes) : Bytes :=
  if isabs p then normpath p else normpath (pathJoin cwd p)

/-- `startswith` on byte strings. -/
def startsWithB (pre s : Bytes) : Bool := s.take pre.length == pre

/-- `file_uri_to_path` from `_uri_utils.py`:

```
parsed = urlparse(file_uri)
if parsed.scheme != "file":
    raise ValueError(...)
netloc = parsed.netloc if parsed.netloc else None
path = os.path.abspath(url2pathname(parsed.path))
return netloc, path
```

`urlparse` is `urlsplit` plus a parameter split that applies only to
schemes in `uses_params`; `"file"` is not one of them and the path is only
read after the scheme check, so `urlsplit` gives the same path here.  The
working directory is the explicit first argument. -/
def file_uri_to_path (cwd uri : Bytes) : Except UriError (Option Bytes × Bytes) :=
  match urlsplit uri with
  | .error e => .error e
  | .ok parsed =>
    if parsed.scheme = strB "file" then
      let netloc := if parsed.netloc = [] then none else some parsed.netloc
      .ok (netloc, abspath cwd (percentDecode parsed.path))
    else
      .error .invalidScheme

/-- Decode table of `binascii.a2b_base64`: letters, digits, plus, slash. -/
def b64CharVal (c : Nat) : Option Nat :=
  if 65 ≤ c ∧ c ≤ 90 then some (c - 65)
  else if 97 ≤ c ∧ c ≤ 122 then some (c - 71)
  else if 48 ≤ c ∧ c ≤ 57 then some (c + 4)
  else if c = 43 then some 62
  else if c = 47 then some 63
  else none

/-- Main loop of `binascii.a2b_base64` in non-strict mode (CPython ≥
3.10): bytes outside the alphabet are skipped; an equals byte with at
least two data characters in the current quad counts pads, and once
`quad_pos + pads` reaches four decoding stops successfully, discarding the
remainder; a data character resets the pad count; at end of input a
partial quad is an error (wrong padding).  The output accumulator is kept
reversed. -/
def a2bBase64 : Bytes → Nat → Nat → Nat → Bytes → Except Unit Bytes
  | [], quadPos, _, _, acc =>
    if quadPos = 0 then .ok acc.reverse else .error ()
  | c :: rest, quadPos, leftchar, pads, acc =>
    if c = 61 then
      if 2 ≤ quadPos then
        if 4 ≤ quadPos + (pads + 1) then .ok acc.reverse
        else a2bBase64 rest quadPos leftchar (pads + 1) acc
      else a2bBase64 rest quadPos leftchar pads acc
    else
      match b64CharVal c with
      | none => a2bBase64 rest quadPos leftchar pads acc
      | some v =>
        match quadPos with
        | 0 => a2bBase64 rest 1 v 0 acc
        | 1 => a2bBase64 rest 2 (v % 16) 0 ((leftchar * 4 + v / 16) :: acc)
        | 2 => a2bBase64 rest 3 (v % 4) 0 ((leftchar * 16 + v / 4) :: acc)
        | _ => a2bBase64 rest 0 0 0 ((leftchar * 64 + v) :: acc)

/-- `base64.b64decode` with default arguments on a `str` argument: the
string must be pure ASCII (`s.encode('ascii')`), then
`binascii.a2b_base64` runs in non-strict mode. -/
def b64decode (s : Bytes) : Except Unit Bytes :=
  if s.all (fun c => c < 128) then a2bBase64 s 0 0 0 [] else .error ()

/-- Python `dict` assignment `d[k] = v` on an association list: an
existing key keeps its position and gets the new value, a new key is
appended at the end. -/
def dictInsert : List (Bytes × Bytes) → Bytes → Bytes → List (Bytes × Bytes)
  | [], k, v => [(k, v)]
  | (a, b) :: rest, k, v =>
    if a = k then (a, v) :: rest else (a, b) :: dictInsert rest k v

/-- One turn of the attribute loop of `parse_data_uri`: a segment with an
equals byte is split at the first one into key and value; a non-empty
segment without one becomes a key with empty value; an empty segment is
skipped. -/
def attrStep (d : List (Bytes × Bytes)) (part : Bytes) : List (Bytes × Bytes) :=
  if part.contains 61 then
    dictInsert d (part.takeWhile (fun c => !(c == 61)))
      ((part.dropWhile (fun c => !(c == 61))).tail)
  else if part.length > 0 then dictInsert d part []
  else d

/-- The attribute loop of `parse_data_uri` (`for part in parts: ...`). -/
def attrLoop (d : List (Bytes × Bytes)) (parts : List Bytes) : List (Bytes × Bytes) :=
  parts.foldl attrStep d

/-- The flag step of `parse_data_uri`:
`if parts and parts[-1] == "base64": parts.pop(); is_base64 = True`
(`parts` is never empty because `str.split` returns at least one piece,
so the guard is subsumed by `getLast?`). -/
def popBase64Flag (parts : List Bytes) : List Bytes × Bool :=
  if parts.getLast? = some (strB "base64") then (parts.dropLast, true)
  else (parts, false)

/-- The mime step of `parse_data_uri`:
`if parts and len(parts[0]) > 0: mime_type = parts.pop(0)`. -/
def popMime : List Bytes → Option Bytes × List Bytes
  | [] => (none, [])
  | p :: rest => if p.length > 0 then (some p, rest) else (none, p :: rest)

/-- `parse_data_uri` from `_uri_utils.py`:

```
if not uri.startswith("data:"): raise ValueError(...)
header, _, data = uri.partition(",")
if not _: raise ValueError(...)
meta = header[5:]
parts = meta.split(";")
is_base64 = False
if parts and parts[-1] == "base64":
    parts.pop(); is_base64 = True
mime_type = None
if parts and len(parts[0]) > 0:
    mime_type = parts.pop(0)
attributes = {}
for part in parts:
    if "=" in part:
        key, value = part.split("=", 1); attributes[key] = value
    elif len(part) > 0:
        attributes[part] = ""
content = base64.b64decode(data) if is_base64 else unquote_to_bytes(data)
return mime_type, attributes, content
```

`meta.split(";")` always yields at least one piece, so the emptiness guard
on `parts` before reading `parts[-1]` is subsumed by `getLast?`. -/
def parse_data_uri (uri : Bytes) :
    Except UriError (Option Bytes × List (Bytes × Bytes) × Bytes) :=
  if startsWithB (strB "data:") uri then
    match splitFirstByte 44 uri with
    | none => .error .malformedDataURI
    | some (header, data) =>
      let fl := popBase64Flag (splitOnByte 59 (header.drop 5))
      let mp := popMime fl.1
      let attributes := attrLoop [] mp.2
      match (if fl.2 then b64decode data else .ok (percentDecode data)) with
      | .error _ => .error .invalidBase64
      | .ok content => .ok (mp.1, attributes, content)
  else .error .notADataURI

/-! ## Spec-side descriptions

The definitions below restate the header grammar of the specification in
terms of the pieces it names (header, payload, segments, base64 flag);
the theorems relate `parse_data_uri` and `file_uri_to_path` to them. -/

/-- Spec-side: the payload of a data URI — everything after the first
comma (empty when there is no comma, a case in which the parser fails
before reading a payload). -/
def dataPayload (uri : Bytes) : Bytes :=
  match splitFirstByte 44 uri with
  | some hd => hd.2
  | none => []

/-- Spec-side: the ordered header segments — the text between `data:` and
the first comma, split on semicolons (empty when there is no comma). -/
def headerSegments (uri : Bytes) : List Bytes :=
  match splitFirstByte 44 uri with
  | some hd => splitOnByte 59 (hd.1.drop 5)
  | none => []

/-- Spec-side: the base64 flag — the last header segment is exactly the
literal `base64`. -/
def base64Flag (uri : Bytes) : Bool :=
  (headerSegments uri).getLast? == some (strB "base64")

/-- Spec-side: the header segments left after removing a trailing
`base64` flag segment. -/
def segmentsAfterFlag (uri : Bytes) : List Bytes :=
  if base64Flag uri then (headerSegments uri).dropLast else headerSegments uri

/-- Spec-side (amended wording of the mime rule): the first remaining
segment is the mime type exactly when it is non-empty, taken
unconditionally whether or not it contains an equals sign. -/
def mimeOfSegments : List Bytes → Option Bytes
  | [] => none
  | p :: _ => if p = [] then none else some p

/-- Spec-side: the segments the attribute loop consumes — what remains
after the flag and the mime type have been taken. -/
def attrSegments (uri : Bytes) : List Bytes :=
  match segmentsAfterFlag uri with
  | [] => []
  | p :: rest => if p = [] then p :: rest else rest

/-- Spec-side: the attribute a single segment declares — split at the
first equals sign into key and value when one is present, a non-empty
segment without one is a key with empty value, an empty segment is
skipped. -/
def attrPairOfSegment (part : Bytes) : Option (Bytes × Bytes) :=
  if part.contains 61 then
    some (part.takeWhile (fun c => !(c == 61)), (part.dropWhile (fun c => !(c == 61))).tail)
  else if part = [] then none
  else some (part, [])

/-- Spec-side: the ordered list of declared attribute pairs. -/
def attrPairs (parts : List Bytes) : List (Bytes × Bytes) :=
  parts.filterMap attrPairOfSegment

/-- Folding Python `dict` assignment over a pair list. -/
def dictFold (d : List (Bytes × Bytes)) (ps : List (Bytes × Bytes)) :
    List (Bytes × Bytes) :=
  ps.foldl (fun d kv => dictInsert d kv.1 kv.2) d

/-- First-occurrence deduplication relative to a set of already-seen
keys: the key order a Python dict ends up with. -/
def dedupNew (seen : List Bytes) : List Bytes → List Bytes
  | [] => []
  | k :: ks => if k ∈ seen then dedupNew seen ks else k :: dedupNew (k :: seen) ks

/-! ## Helper lemmas about the data-URI parser -/

theorem headerSegments_eq (uri header data : Bytes)
    (hc : splitFirstByte 44 uri = some (header, data)) :
    headerSegments uri = splitOnByte 59 (header.drop 5) := by
  simp [headerSegments, hc]

theorem dataPayload_eq (uri header data : Bytes)
    (hc : splitFirstByte 44 uri = some (header, data)) :
    dataPayload uri = data := by
  simp [dataPayload, hc]

theorem popBase64Flag_snd (parts : List Bytes) :
    (popBase64Flag parts).2 = (parts.getLast? == some (strB "base64")) := by
  unfold popBase64Flag
  by_cases h : parts.getLast? = some (strB "base64") <;> simp [h]

theorem base64Flag_eq (uri header data : Bytes)
    (hc : splitFirstByte 44 uri = some (header, data)) :
    base64Flag uri = (popBase64Flag (splitOnByte 59 (header.drop 5))).2 := by
  rw [base64Flag, headerSegments_eq uri header data hc, popBase64Flag_snd]

theorem segmentsAfterFlag_eq (uri header data : Bytes)
    (hc : splitFirstByte 44 uri = some (header, data)) :
    segmentsAfterFlag uri = (popBase64Flag (splitOnByte 59 (header.drop 5))).1 := by
  rw [segmentsAfterFlag, base64Flag, headerSegments_eq uri header data hc, popBase64Flag]
  by_cases h : (splitOnByte 59 (header.drop 5)).getLast? = some (strB "base64") <;> simp [h]

theorem popMime_fst (parts : List Bytes) :
    (popMime parts).1 = mimeOfSegments parts := by
  rcases parts with _ | ⟨p, rest⟩
  · rfl
  · unfold popMime mimeOfSegments
    rcases p with _ | ⟨c, cs⟩ <;> simp

theorem attrSegments_eq (uri : Bytes) :
    attrSegments uri = (popMime (segmentsAfterFlag uri)).2 := by
  unfold attrSegments popMime
  rcases segmentsAfterFlag uri with _ | ⟨p, rest⟩
  · rfl
  · rcases p with _ | ⟨c, cs⟩ <;> simp

theorem parse_not_data (uri : Bytes)
    (hs : startsWithB (strB "data:") uri = false) :
    parse_data_uri uri = .error .notADataURI := by
  rw [parse_data_uri]
  simp [hs]

theorem parse_no_comma (uri : Bytes)
    (hs : startsWithB (strB "data:") uri = true)
    (hc : splitFirstByte 44 uri = none) :
    parse_data_uri uri = .error .malformedDataURI := by
  rw [parse_data_uri]
  simp [hs, hc]

/-- The central decomposition: on a `data:`-prefixed input with a comma,
`parse_data_uri` is the spec-side pipeline — flag, mime, attributes,
payload decoding per flag. -/
theorem parse_decomp (uri header data : Bytes)
    (hs : startsWithB (strB "data:") uri = true)
    (hc : splitFirstByte 44 uri = some (header, data)) :
    parse_data_uri uri =
      match (if base64Flag uri then b64decode (dataPayload uri)
             else .ok (percentDecode (dataPayload uri))) with
      | .error _ => .error .invalidBase64
      | .ok content =>
        .ok (mimeOfSegments (segmentsAfterFlag uri),
             attrLoop [] (attrSegments uri), content) := by
  rw [base64Flag_eq uri header data hc, dataPayload_eq uri header data hc,
    attrSegments_eq uri, segmentsAfterFlag_eq uri header data hc, ← popMime_fst]
  rw [parse_data_uri]
  simp only [hs, if_true, hc]

/-! ## Association-list lemmas: Python dict semantics -/

theorem lookup_cons (a b k : Bytes) (rest : List (Bytes × Bytes)) :
    List.lookup k ((a, b) :: rest) = if k = a then some b else List.lookup k rest := by
  by_cases h : k = a
  · simp [List.lookup, h]
  · simp [List.lookup, beq_eq_false_iff_ne.mpr h, h]

theorem dictInsert_map_fst_mem (k v : Bytes) :
    ∀ d : List (Bytes × Bytes), k ∈ d.map Prod.fst →
    (dictInsert d k v).map Prod.fst = d.map Prod.fst := by
  intro d
  induction d with
  | nil => intro h; simp at h
  | cons x rest ih =>
    rcases x with ⟨a, b⟩
    intro h
    by_cases hk : a = k
    · rw [dictInsert, if_pos hk]
      simp
    · rw [dictInsert, if_neg hk]
      simp only [List.map_cons]
      rw [ih]
      have h2 : k ∈ a :: rest.map Prod.fst := by simpa using h
      rcases List.mem_cons.mp h2 with hc | hc
      · exact absurd hc.symm hk
      · exact hc

theorem dictInsert_map_fst_not_mem (k v : Bytes) :
    ∀ d : List (Bytes × Bytes), ¬ k ∈ d.map Prod.fst →
    (dictInsert d k v).map Prod.fst = d.map Prod.fst ++ [k] := by
  intro d
  induction d with
  | nil => intro _; rfl
  | cons x rest ih =>
    rcases x with ⟨a, b⟩
    intro h
    have hk : a ≠ k := by
      intro hc
      exact h (by simp [hc])
    rw [dictInsert, if_neg hk]
    simp only [List.map_cons, List.cons_append]
    rw [ih (fun hc => h (by simp [hc]))]

theorem dictInsert_lookup_self (k v : Bytes) :
    ∀ d : List (Bytes × Bytes), (dictInsert d k v).lookup k = some v := by
  intro d
  induction d with
  | nil => simp [dictInsert, lookup_cons]
  | cons x rest ih =>
    rcases x with ⟨a, b⟩
    by_cases hk : a = k
    · rw [dictInsert, if_pos hk, lookup_cons, if_pos hk.symm]
    · rw [dictInsert, if_neg hk, lookup_cons, if_neg (fun hc => hk hc.symm)]
      exact ih

theorem dictInsert_lookup_ne (k k' v : Bytes) (h : k' ≠ k) :
    ∀ d : List (Bytes × Bytes), (dictInsert d k v).lookup k' = d.lookup k' := by
  intro d
  induction d with
  | nil =>
    rw [show dictInsert [] k v = [(k, v)] from rfl, lookup_cons, if_neg h]
  | cons x rest ih =>
    rcases x with ⟨a, b⟩
    by_cases hk : a = k
    · rw [dictInsert, if_pos hk, lookup_cons, lookup_cons]
      subst hk
      rw [if_neg (fun hc => h hc), if_neg (fun hc => h hc)]
    · rw [dictInsert, if_neg hk, lookup_cons, lookup_cons, ih]

theorem dedupNew_congr (l : List Bytes) : ∀ s₁ s₂ : List Bytes,
    (∀ x, x ∈ s₁ ↔ x ∈ s₂) → dedupNew s₁ l = dedupNew s₂ l := by
  induction l with
  | nil => intro s₁ s₂ _; rfl
  | cons k ks ih =>
    intro s₁ s₂ hmem
    unfold dedupNew
    by_cases hk : k ∈ s₁
    · rw [if_pos hk, if_pos ((hmem k).mp hk), ih s₁ s₂ hmem]
    · rw [if_neg hk, if_neg (fun hc => hk ((hmem k).mpr hc))]
      rw [ih (k :: s₁) (k :: s₂) (by intro x; simp [hmem x])]

theorem dictFold_cons (d : List (Bytes × Bytes)) (p : Bytes × Bytes)
    (ps : List (Bytes × Bytes)) :
    dictFold d (p :: ps) = dictFold (dictInsert d p.1 p.2) ps := rfl

theorem dictFold_map_fst (ps : List (Bytes × Bytes)) :
    ∀ d : List (Bytes × Bytes),
    (dictFold d ps).map Prod.fst =
      d.map Prod.fst ++ dedupNew (d.map Prod.fst) (ps.map Prod.fst) := by
  induction ps with
  | nil => intro d; simp [dictFold, dedupNew]
  | cons p rest ih =>
    intro d
    rw [dictFold_cons, ih]
    by_cases hk : p.1 ∈ d.map Prod.fst
    · rw [dictInsert_map_fst_mem p.1 p.2 d hk]
      simp only [List.map_cons]
      rw [dedupNew, if_pos hk]
    · rw [dictInsert_map_fst_not_mem p.1 p.2 d hk]
      simp only [List.map_cons]
      rw [dedupNew, if_neg hk]
      rw [dedupNew_congr (rest.map Prod.fst) (d.map Prod.fst ++ [p.1]) (p.1 :: d.map Prod.fst)
        (by intro x; simp; tauto)]
      simp

theorem dedupNew_nodup (l : List Bytes) : ∀ seen : List Bytes,
    (dedupNew seen l).Nodup ∧ ∀ x ∈ dedupNew seen l, ¬ x ∈ seen := by
  induction l with
  | nil => intro seen; simp [dedupNew]
  | cons k ks ih =>
    intro seen
    unfold dedupNew
    by_cases hk : k ∈ seen
    · rw [if_pos hk]; exact ih seen
    · rw [if_neg hk]
      obtain ⟨hnd, hnm⟩ := ih (k :: seen)
      refine ⟨List.nodup_cons.mpr ⟨fun hc => (hnm k hc) (by simp), hnd⟩, ?_⟩
      intro x hx
      rcases List.mem_cons.mp hx with h | h
      · subst h; exact hk
      · intro hc; exact hnm x h (by simp [hc])

theorem lookup_append (xs ys : List (Bytes × Bytes)) (k : Bytes) :
    (xs ++ ys).lookup k = (xs.lookup k).or (ys.lookup k) := by
  induction xs with
  | nil => simp [List.lookup]
  | cons x rest ih =>
    rcases x with ⟨a, b⟩
    rw [List.cons_append, lookup_cons, lookup_cons]
    by_cases hk : k = a
    · rw [if_pos hk, if_pos hk]
      rfl
    · rw [if_neg hk, if_neg hk, ih]

theorem dictFold_lookup (ps : List (Bytes × Bytes)) :
    ∀ (d : List (Bytes × Bytes)) (k : Bytes),
    (dictFold d ps).lookup k = (ps.reverse.lookup k).or (d.lookup k) := by
  induction ps with
  | nil => intro d k; simp [dictFold, List.lookup]
  | cons p rest ih =>
    intro d k
    rw [dictFold_cons, ih]
    simp only [List.reverse_cons, lookup_append]
    rw [Option.or_assoc]
    congr 1
    rcases p with ⟨a, b⟩
    rw [lookup_cons]
    by_cases hk : k = a
    · subst hk
      rw [if_pos rfl, dictInsert_lookup_self]
      rfl
    · rw [if_neg hk, dictInsert_lookup_ne a k b hk d]
      simp [List.lookup]

theorem attrStep_eq (d : List (Bytes × Bytes)) (part : Bytes) :
    attrStep d part =
      match attrPairOfSegment part with
      | some kv => dictInsert d kv.1 kv.2
      | none => d := by
  unfold attrStep attrPairOfSegment
  by_cases hc : part.contains 61 = true
  · rw [if_pos hc, if_pos hc]
  · rw [if_neg hc, if_neg hc]
    rcases part with _ | ⟨c, cs⟩
    · simp
    · simp

theorem attrLoop_eq_dictFold (parts : List Bytes) :
    ∀ d : List (Bytes × Bytes), attrLoop d parts = dictFold d (attrPairs parts) := by
  induction parts with
  | nil => intro d; rfl
  | cons part rest ih =>
    intro d
    have h1 : attrLoop d (part :: rest) = attrLoop (attrStep d part) rest := rfl
    rw [h1, ih, attrStep_eq]
    unfold attrPairs
    rw [List.filterMap_cons]
    cases attrPairOfSegment part
    · rfl
    · rfl

/-! ## Split lemmas and parse elimination/introduction rules -/

theorem splitFirstByte_none_iff (sep : Nat) (s : Bytes) :
    splitFirstByte sep s = none ↔ s.contains sep = false := by
  unfold splitFirstByte
  by_cases h : s.contains sep = true
  · simp [h]
  · simp [h]

theorem takeWhile_no_sep (sep : Nat) (h : Bytes) : ∀ d : Bytes, h.contains sep = false →
    (h ++ sep :: d).takeWhile (fun c => !(c == sep)) = h ∧
    (h ++ sep :: d).dropWhile (fun c => !(c == sep)) = sep :: d := by
  induction h with
  | nil =>
    intro d _
    constructor <;> simp [List.takeWhile, List.dropWhile]
  | cons c cs ih =>
    intro d hc
    have hprop : ¬ (sep = c ∨ sep ∈ cs) := by simpa using hc
    push_neg at hprop
    have hcne : (c == sep) = false :=
      beq_eq_false_iff_ne.mpr (fun he => hprop.1 he.symm)
    have hcs : cs.contains sep = false := by
      simp
      exact hprop.2
    obtain ⟨h1, h2⟩ := ih d hcs
    constructor
    · simp only [List.cons_append, List.takeWhile_cons, hcne]
      simp [h1]
    · simp only [List.cons_append, List.dropWhile_cons, hcne]
      simp [h2]

theorem splitFirstByte_append (sep : Nat) (h d : Bytes)
    (hh : h.contains sep = false) :
    splitFirstByte sep (h ++ sep :: d) = some (h, d) := by
  obtain ⟨h1, h2⟩ := takeWhile_no_sep sep h d hh
  unfold splitFirstByte
  have hcont : (h ++ sep :: d).contains sep = true := by simp
  rw [if_pos hcont, h1, h2]
  rfl

theorem base64Flag_comma (uri : Bytes) (hf : base64Flag uri = true) :
    uri.contains 44 = true := by
  by_cases h : uri.contains 44 = true
  · exact h
  · exfalso
    have hn : splitFirstByte 44 uri = none :=
      (splitFirstByte_none_iff 44 uri).mpr (by simpa using h)
    rw [base64Flag, headerSegments, hn] at hf
    simp at hf

theorem parse_ok_elim (uri : Bytes) (m : Option Bytes)
    (a : List (Bytes × Bytes)) (c : Bytes)
    (hok : parse_data_uri uri = .ok (m, a, c)) :
    startsWithB (strB "data:") uri = true ∧
    uri.contains 44 = true ∧
    m = mimeOfSegments (segmentsAfterFlag uri) ∧
    a = attrLoop [] (attrSegments uri) ∧
    (if base64Flag uri then b64decode (dataPayload uri) = .ok c
     else c = percentDecode (dataPayload uri)) := by
  by_cases hs : startsWithB (strB "data:") uri = true
  · cases hsp : splitFirstByte 44 uri with
    | none =>
      rw [parse_no_comma uri hs hsp] at hok
      cases hok
    | some hd =>
      obtain ⟨header, data⟩ := hd
      have hcomma : uri.contains 44 = true := by
        by_cases hcc : uri.contains 44 = true
        · exact hcc
        · rw [(splitFirstByte_none_iff 44 uri).mpr (by simpa using hcc)] at hsp
          cases hsp
      rw [parse_decomp uri header data hs hsp] at hok
      refine ⟨hs, hcomma, ?_⟩
      cases hfl : base64Flag uri
      · rw [hfl] at hok
        rw [if_neg (by simp)] at hok
        rw [if_neg (by simp)]
        simp only [Except.ok.injEq, Prod.mk.injEq] at hok
        exact ⟨hok.1.symm, hok.2.1.symm, hok.2.2.symm⟩
      · rw [hfl] at hok
        rw [if_pos rfl] at hok
        rw [if_pos rfl]
        cases hb : b64decode (dataPayload uri) with
        | error e =>
          rw [hb] at hok
          cases hok
        | ok content =>
          rw [hb] at hok
          simp only [Except.ok.injEq, Prod.mk.injEq] at hok
          refine ⟨hok.1.symm, hok.2.1.symm, ?_⟩
          rw [← hok.2.2]
  · rw [parse_not_data uri (by simpa using hs)] at hok
    cases hok

theorem parse_ok_of_not_base64 (uri : Bytes)
    (hs : startsWithB (strB "data:") uri = true)
    (hcomma : uri.contains 44 = true)
    (hb : base64Flag uri = false) :
    parse_data_uri uri =
      .ok (mimeOfSegments (segmentsAfterFlag uri),
           attrLoop [] (attrSegments uri), percentDecode (dataPayload uri)) := by
  obtain ⟨header, data, hsp⟩ : ∃ header data, splitFirstByte 44 uri = some (header, data) := by
    cases hsp : splitFirstByte 44 uri with
    | none =>
      rw [splitFirstByte_none_iff] at hsp
      rw [hsp] at hcomma
      cases hcomma
    | some hd =>
      obtain ⟨header, data⟩ := hd
      exact ⟨header, data, rfl⟩
  rw [parse_decomp uri header data hs hsp, hb]
  rw [if_neg (by simp)]

theorem parse_ok_of_base64 (uri c : Bytes)
    (hs : startsWithB (strB "data:") uri = true)
    (hb : base64Flag uri = true)
    (hdec : b64decode (dataPayload uri) = .ok c) :
    parse_data_uri uri =
      .ok (mimeOfSegments (segmentsAfterFlag uri),
           attrLoop [] (attrSegments uri), c) := by
  have hcomma := base64Flag_comma uri hb
  obtain ⟨header, data, hsp⟩ : ∃ header data, splitFirstByte 44 uri = some (header, data) := by
    cases hsp : splitFirstByte 44 uri with
    | none =>
      rw [splitFirstByte_none_iff] at hsp
      rw [hsp] at hcomma
      cases hcomma
    | some hd =>
      obtain ⟨header, data⟩ := hd
      exact ⟨header, data, rfl⟩
  rw [parse_decomp uri header data hs hsp, hb]
  rw [if_pos rfl, hdec]

theorem parse_invalidBase64_intro (uri : Bytes)
    (hs : startsWithB (strB "data:") uri = true)
    (hb : base64Flag uri = true)
    (hbad : b64decode (dataPayload uri) = .error ()) :
    parse_data_uri uri = .error .invalidBase64 := by
  have hcomma := base64Flag_comma uri hb
  obtain ⟨header, data, hsp⟩ : ∃ header data, splitFirstByte 44 uri = some (header, data) := by
    cases hsp : splitFirstByte 44 uri with
    | none =>
      rw [splitFirstByte_none_iff] at hsp
      rw [hsp] at hcomma
      cases hcomma
    | some hd =>
      obtain ⟨header, data⟩ := hd
      exact ⟨header, data, rfl⟩
  rw [parse_decomp uri header data hs hsp, hb]
  rw [if_pos rfl, hbad]

theorem parse_error_elim (uri : Bytes) (e : UriError)
    (he : parse_data_uri uri = .error e) :
    (e = .notADataURI ∧ startsWithB (strB "data:") uri = false) ∨
    (e = .malformedDataURI ∧ startsWithB (strB "data:") uri = true ∧
      uri.contains 44 = false) ∨
    (e = .invalidBase64 ∧ base64Flag uri = true ∧
      b64decode (dataPayload uri) = .error ()) := by
  by_cases hs : startsWithB (strB "data:") uri = true
  · cases hsp : splitFirstByte 44 uri with
    | none =>
      rw [parse_no_comma uri hs hsp] at he
      simp only [Except.error.injEq] at he
      exact Or.inr (Or.inl ⟨he.symm, hs, (splitFirstByte_none_iff 44 uri).mp hsp⟩)
    | some hd =>
      obtain ⟨header, data⟩ := hd
      rw [parse_decomp uri header data hs hsp] at he
      cases hfl : base64Flag uri
      · rw [hfl] at he
        rw [if_neg (by simp)] at he
        simp at he
      · rw [hfl] at he
        rw [if_pos rfl] at he
        cases hb : b64decode (dataPayload uri) with
        | ok content =>
          rw [hb] at he
          simp at he
        | error u =>
          cases u
          rw [hb] at he
          simp only [Except.error.injEq] at he
          exact Or.inr (Or.inr ⟨he.symm, rfl, rfl⟩)
  · rw [parse_not_data uri (by simpa using hs)] at he
    simp only [Except.error.injEq] at he
    exact Or.inl ⟨he.symm, by simpa using hs⟩

/-! ## Claim theorems: the data-URI decoder -/

/-- C1 counterexample: the claim says a first header segment containing an
equals sign is never returned as the mime type and becomes an attribute
instead; but on `data:a=b,x` the code returns mime type `a=b` (which
contains an equals byte, 61) and an empty attribute mapping. -/
theorem c1_counterexample :
    parse_data_uri (strB "data:a=b,x") = .ok (some (strB "a=b"), [], strB "x") ∧
    (strB "a=b").contains 61 = true := ⟨rfl, rfl⟩

/-- C1 (amended): in every successful parse, the mime type is the first
header segment remaining after flag removal exactly when that segment is
non-empty — taken unconditionally, whether or not it contains an equals
sign. -/
theorem c1_theorem (uri : Bytes) (m : Option Bytes)
    (a : List (Bytes × Bytes)) (c : Bytes)
    (hok : parse_data_uri uri = .ok (m, a, c)) :
    (m = none ↔ ((segmentsAfterFlag uri).head? = none ∨
                 (segmentsAfterFlag uri).head? = some [])) ∧
    (∀ x, m = some x → (segmentsAfterFlag uri).head? = some x) := by
  rw [(parse_ok_elim uri m a c hok).2.2.1]
  generalize segmentsAfterFlag uri = segs
  rcases segs with _ | ⟨p, rest⟩
  · simp [mimeOfSegments]
  · by_cases hp : p = []
    · subst hp
      simp [mimeOfSegments]
    · simp [mimeOfSegments, hp]

/-- C1 witness: instantiating the amended theorem on `data:a=b,x`, whose
mime type is `a=b`. -/
theorem c1_witness :
    (segmentsAfterFlag (strB "data:a=b,x")).head? = some (strB "a=b") :=
  (c1_theorem (strB "data:a=b,x") (some (strB "a=b")) [] (strB "x") rfl).2
    (strB "a=b") rfl

/-- C2 counterexample: the claim says a base64 payload containing bytes
outside the standard alphabet fails with InvalidBase64; but the payload
`SGVsbG8!=` contains the byte 33 (`!`), which is outside the alphabet and
is not padding, and decoding succeeds with content `Hello`. -/
theorem c2_counterexample :
    parse_data_uri (strB "data:;base64,SGVsbG8!=") = .ok (none, [], strB "Hello") ∧
    (strB "SGVsbG8!=").contains 33 = true ∧
    b64CharVal 33 = none ∧ (33 : Nat) ≠ 61 := ⟨rfl, rfl, rfl, by decide⟩

/-- C2 (amended): with the base64 flag set, parsing fails with
InvalidBase64 exactly when the payload is rejected by CPython's
non-strict base64 decoder, which first discards bytes outside the
alphabet and then fails on a wrongly padded remainder; bytes outside the
alphabet alone do not cause failure.  The spec's concrete example
`data:;base64,not-valid-base64!!` does fail with InvalidBase64. -/
theorem c2_theorem :
    (∀ uri, startsWithB (strB "data:") uri = true → base64Flag uri = true →
      (parse_data_uri uri = .error .invalidBase64 ↔
        b64decode (dataPayload uri) = .error ())) ∧
    parse_data_uri (strB "data:;base64,not-valid-base64!!") =
      .error .invalidBase64 := by
  constructor
  · intro uri hs hb
    constructor
    · intro he
      rcases parse_error_elim uri _ he with ⟨h1, _⟩ | ⟨h1, _⟩ | ⟨_, _, h3⟩
      · simp at h1
      · simp at h1
      · exact h3
    · intro hbad
      exact parse_invalidBase64_intro uri hs hb hbad
  · rfl

/-- C2 witness: instantiating the amended equivalence on
`data:;base64,QQ=` (a wrongly padded payload). -/
theorem c2_witness :
    parse_data_uri (strB "data:;base64,QQ=") = .error .invalidBase64 :=
  (c2_theorem.1 (strB "data:;base64,QQ=") rfl rfl).mpr rfl

/-- C3: the payload is decoded as base64 exactly when the base64 flag is
set — the last header segment is the case-sensitive literal `base64` —
and is percent-decoded otherwise.  Concretely, `BASE64` does not set the
flag (it survives as an attribute and the payload stays percent-decoded),
and a non-final `base64` segment does not set the flag (it is consumed as
the mime type below). -/
theorem c3_theorem :
    (∀ uri m a c, parse_data_uri uri = .ok (m, a, c) →
      (base64Flag uri = false → c = percentDecode (dataPayload uri)) ∧
      (base64Flag uri = true → b64decode (dataPayload uri) = .ok c)) ∧
    parse_data_uri (strB "data:text/plain;BASE64,SGVsbG8=") =
      .ok (some (strB "text/plain"), [(strB "BASE64", [])], strB "SGVsbG8=") ∧
    parse_data_uri (strB "data:base64;x,AA==") =
      .ok (some (strB "base64"), [(strB "x", [])], strB "AA==") := by
  refine ⟨?_, rfl, rfl⟩
  intro uri m a c hok
  have h5 := (parse_ok_elim uri m a c hok).2.2.2.2
  constructor
  · intro hb
    rw [hb, if_neg (by simp)] at h5
    exact h5
  · intro hb
    rw [hb, if_pos rfl] at h5
    exact h5

/-- C3 witness: instantiating the decode-mode dichotomy on the spec's
percent-decoding example. -/
theorem c3_witness :
    strB "Hi there" =
      percentDecode (dataPayload (strB "data:;charset=utf-8,Hi%20there")) :=
  ((c3_theorem.1 (strB "data:;charset=utf-8,Hi%20there") none
    [(strB "charset", strB "utf-8")] (strB "Hi there") rfl).1 rfl)

/-- C4: on a `data:`-prefixed input, parsing fails with MalformedDataURI
exactly when the input has no comma; when the input splits as
`header ++ comma ++ rest` at its first comma, the whole of `rest` — later
commas included — is the payload the content is decoded from.  The
spec's example `data:text/plain` fails with MalformedDataURI. -/
theorem c4_theorem :
    (∀ uri, startsWithB (strB "data:") uri = true →
      ((parse_data_uri uri = .error .malformedDataURI) ↔
        uri.contains 44 = false)) ∧
    (∀ h d m a c, h.contains 44 = false →
      parse_data_uri (h ++ 44 :: d) = .ok (m, a, c) →
      dataPayload (h ++ 44 :: d) = d ∧
      (if base64Flag (h ++ 44 :: d) then b64decode d = .ok c
       else c = percentDecode d)) ∧
    parse_data_uri (strB "data:text/plain") = .error .malformedDataURI := by
  refine ⟨?_, ?_, rfl⟩
  · intro uri hs
    constructor
    · intro he
      rcases parse_error_elim uri _ he with ⟨h1, _⟩ | ⟨_, _, h3⟩ | ⟨h1, _⟩
      · simp at h1
      · exact h3
      · simp at h1
    · intro hnc
      exact parse_no_comma uri hs ((splitFirstByte_none_iff 44 uri).mpr hnc)
  · intro h d m a c hh hok
    have hpd : dataPayload (h ++ 44 :: d) = d :=
      dataPayload_eq (h ++ 44 :: d) h d (splitFirstByte_append 44 h d hh)
    refine ⟨hpd, ?_⟩
    have h5 := (parse_ok_elim (h ++ 44 :: d) m a c hok).2.2.2.2
    rw [hpd] at h5
    exact h5

/-- C4 witness: instantiating the first-comma split on
`data:;base64,QQ==`, whose header is comma-free. -/
theorem c4_witness :
    dataPayload (strB "data:;base64" ++ 44 :: strB "QQ==") = strB "QQ==" :=
  (c4_theorem.2.1 (strB "data:;base64") (strB "QQ==") none [] [65] rfl rfl).1

/-- C5: in every successful parse the attributes are the Python-dict fold
of the attribute pairs declared by the remaining segments (split at the
first equals sign; bare non-empty segment ↦ empty value; empty segments
skipped); the key order is the first-occurrence order of the declared
keys, keys are unique, and each key maps to the value of its last
declaration.  The spec's charset example and a duplicate-key example
confirm the ordering and last-write-wins concretely. -/
theorem c5_theorem :
    (∀ uri m a c, parse_data_uri uri = .ok (m, a, c) →
      a = dictFold [] (attrPairs (attrSegments uri)) ∧
      a.map Prod.fst = dedupNew [] ((attrPairs (attrSegments uri)).map Prod.fst) ∧
      (a.map Prod.fst).Nodup ∧
      (∀ k, a.lookup k = (attrPairs (attrSegments uri)).reverse.lookup k)) ∧
    parse_data_uri (strB "data:;charset=utf-8,Hi%20there") =
      .ok (none, [(strB "charset", strB "utf-8")], strB "Hi there") ∧
    parse_data_uri (strB "data:m;a=1;b=2;a=3,x") =
      .ok (some (strB "m"), [(strB "a", strB "3"), (strB "b", strB "2")], strB "x") := by
  refine ⟨?_, rfl, rfl⟩
  intro uri m a c hok
  rw [(parse_ok_elim uri m a c hok).2.2.2.1, attrLoop_eq_dictFold]
  refine ⟨rfl, ?_, ?_, ?_⟩
  · rw [dictFold_map_fst]
    simp
  · rw [dictFold_map_fst]
    simp
    exact (dedupNew_nodup ((attrPairs (attrSegments uri)).map Prod.fst) []).1
  · intro k
    rw [dictFold_lookup]
    simp [List.lookup]

/-- C5 witness: instantiating the attribute characterization on the
duplicate-key input `data:m;a=1;b=2;a=3,x`. -/
theorem c5_witness :
    ([(strB "a", strB "3"), (strB "b", strB "2")] : List (Bytes × Bytes)).lookup
        (strB "a") =
      (attrPairs (attrSegments (strB "data:m;a=1;b=2;a=3,x"))).reverse.lookup
        (strB "a") :=
  ((c5_theorem.1 (strB "data:m;a=1;b=2;a=3,x") (some (strB "m"))
    [(strB "a", strB "3"), (strB "b", strB "2")] (strB "x") rfl).2.2.2) (strB "a")

/-- C9: once the `data:` prefix and comma checks pass, a cleared base64
flag guarantees a successful parse whose content is the (total)
percent-decoding of the payload; consequently every error past those
checks is InvalidBase64 and implies the flag was set. -/
theorem c9_theorem (uri : Bytes)
    (hs : startsWithB (strB "data:") uri = true)
    (hcomma : uri.contains 44 = true) :
    (base64Flag uri = false →
      parse_data_uri uri =
        .ok (mimeOfSegments (segmentsAfterFlag uri),
             attrLoop [] (attrSegments uri),
             percentDecode (dataPayload uri))) ∧
    (∀ e, parse_data_uri uri = .error e →
      e = .invalidBase64 ∧ base64Flag uri = true) := by
  constructor
  · intro hb
    exact parse_ok_of_not_base64 uri hs hcomma hb
  · intro e he
    rcases parse_error_elim uri e he with ⟨h1, h2⟩ | ⟨h1, h2, h3⟩ | ⟨h1, h2, h3⟩
    · rw [hs] at h2
      cases h2
    · rw [hcomma] at h3
      cases h3
    · exact ⟨h1, h2⟩

/-- C9 witness: instantiating the totality statement on `data:,abc`. -/
theorem c9_witness :
    parse_data_uri (strB "data:,abc") =
      .ok (mimeOfSegments (segmentsAfterFlag (strB "data:,abc")),
           attrLoop [] (attrSegments (strB "data:,abc")),
           percentDecode (dataPayload (strB "data:,abc"))) :=
  (c9_theorem (strB "data:,abc") rfl rfl).1 rfl

/-! ## Helper lemmas about the file-URI decoder -/

theorem urlsplit_error_elim (u : Bytes) (e : UriError)
    (he : urlsplit u = .error e) : e = .invalidIPv6URL := by
  unfold urlsplit at he
  by_cases hbr : badBrackets (urlsplitCore u).netloc = true
  · rw [if_pos hbr] at he
    simp only [Except.error.injEq] at he
    exact he.symm
  · rw [if_neg hbr] at he
    cases he

theorem urlsplit_ok_elim (u : Bytes) (r : SplitResult)
    (hu : urlsplit u = .ok r) : r = urlsplitCore u := by
  unfold urlsplit at hu
  by_cases hbr : badBrackets (urlsplitCore u).netloc = true
  · rw [if_pos hbr] at hu
    cases hu
  · rw [if_neg hbr] at hu
    cases hu
    rfl

theorem urlsplit_scheme_of (u : Bytes) (r : SplitResult)
    (hu : urlsplit u = .ok r) :
    r.scheme = (splitScheme (urlsplitPre u)).1 := by
  rw [urlsplit_ok_elim u r hu]
  rfl

theorem file_uri_to_path_eq_ok (cwd uri : Bytes) (r : SplitResult)
    (hu : urlsplit uri = .ok r) :
    file_uri_to_path cwd uri =
      if r.scheme = strB "file" then
        .ok ((if r.netloc = [] then none else some r.netloc),
             abspath cwd (percentDecode r.path))
      else .error .invalidScheme := by
  unfold file_uri_to_path
  rw [hu]

theorem file_ok_elim (cwd uri : Bytes) (nl : Option Bytes) (p : Bytes)
    (hok : file_uri_to_path cwd uri = .ok (nl, p)) :
    ∃ r, urlsplit uri = .ok r ∧ r.scheme = strB "file" ∧
      nl = (if r.netloc = [] then none else some r.netloc) ∧
      p = abspath cwd (percentDecode r.path) := by
  cases hu : urlsplit uri with
  | error e =>
    unfold file_uri_to_path at hok
    rw [hu] at hok
    cases hok
  | ok r =>
    rw [file_uri_to_path_eq_ok cwd uri r hu] at hok
    by_cases hsch : r.scheme = strB "file"
    · rw [if_pos hsch] at hok
      simp only [Except.ok.injEq, Prod.mk.injEq] at hok
      exact ⟨r, rfl, hsch, hok.1.symm, hok.2.symm⟩
    · rw [if_neg hsch] at hok
      cases hok

theorem file_ok_intro (cwd uri : Bytes) (r : SplitResult)
    (hu : urlsplit uri = .ok r) (hsch : r.scheme = strB "file") :
    file_uri_to_path cwd uri =
      .ok ((if r.netloc = [] then none else some r.netloc),
           abspath cwd (percentDecode r.path)) := by
  rw [file_uri_to_path_eq_ok cwd uri r hu, if_pos hsch]

theorem file_error_of_urlsplit (cwd uri : Bytes) (e : UriError)
    (hu : urlsplit uri = .error e) :
    file_uri_to_path cwd uri = .error e := by
  unfold file_uri_to_path
  rw [hu]

theorem file_invalidScheme_iff (cwd uri : Bytes) (r : SplitResult)
    (hu : urlsplit uri = .ok r) :
    (file_uri_to_path cwd uri = .error .invalidScheme) ↔
      r.scheme ≠ strB "file" := by
  rw [file_uri_to_path_eq_ok cwd uri r hu]
  by_cases hsch : r.scheme = strB "file"
  · rw [if_pos hsch]
    simp [hsch]
  · rw [if_neg hsch]
    simp [hsch]

/-! ## Claim theorems: the file-URI decoder (scheme and authority) -/

/-- C6 counterexample: the claim says the decoder never raises when the
scheme is `file`; but on `file://[/x` — whose scheme component is `file` —
URL parsing itself raises the distinct `Invalid IPv6 URL` error
(unbalanced bracket in the authority), which is not InvalidScheme. -/
theorem c6_counterexample :
    (splitScheme (strB "file://[/x")).1 = strB "file" ∧
    file_uri_to_path (strB "/") (strB "file://[/x") = .error .invalidIPv6URL :=
  ⟨rfl, rfl⟩

/-- C6 (amended): the decoder fails with InvalidScheme exactly when URL
splitting succeeds and the parsed scheme is not `file`; when URL
splitting succeeds with scheme `file`, a (network_location, path) result
is returned; URL splitting itself can fail — only with the Invalid IPv6
URL error, for an unbalanced bracket in the authority — and that distinct
error propagates even when the scheme reads `file`. -/
theorem c6_theorem (cwd uri : Bytes) :
    (∀ r, urlsplit uri = .ok r →
      ((file_uri_to_path cwd uri = .error .invalidScheme) ↔
        r.scheme ≠ strB "file") ∧
      (r.scheme = strB "file" →
        ∃ nl p, file_uri_to_path cwd uri = .ok (nl, p))) ∧
    (∀ e, urlsplit uri = .error e →
      file_uri_to_path cwd uri = .error e ∧ e = .invalidIPv6URL) := by
  constructor
  · intro r hu
    refine ⟨file_invalidScheme_iff cwd uri r hu, ?_⟩
    intro hsch
    exact ⟨_, _, file_ok_intro cwd uri r hu hsch⟩
  · intro e hu
    exact ⟨file_error_of_urlsplit cwd uri e hu, urlsplit_error_elim uri e hu⟩

/-- C6 witness: instantiating the amended characterization on
`http://h/x`, which fails with InvalidScheme. -/
theorem c6_witness :
    file_uri_to_path (strB "/") (strB "http://h/x") = .error .invalidScheme :=
  ((c6_theorem (strB "/") (strB "http://h/x")).1
    ⟨strB "http", strB "h", strB "/x", [], []⟩ rfl).1.mpr (by decide)

/-- C7: in every successful decode, the returned network location is the
authority component verbatim when that component is non-empty and absent
otherwise; the spec's two concrete examples hold, with the UNC host
`server` returned verbatim and the empty authority of
`file:///tmp/a%20b.txt` yielding no network location. -/
theorem c7_theorem :
    (∀ cwd uri nl p r, file_uri_to_path cwd uri = .ok (nl, p) →
      urlsplit uri = .ok r →
      nl = (if r.netloc = [] then none else some r.netloc)) ∧
    file_uri_to_path (strB "/") (strB "file://server/share/doc.txt") =
      .ok (some (strB "server"), strB "/share/doc.txt") ∧
    file_uri_to_path (strB "/") (strB "file:///tmp/a%20b.txt") =
      .ok (none, strB "/tmp/a b.txt") := by
  refine ⟨?_, rfl, rfl⟩
  intro cwd uri nl p r hok hu
  obtain ⟨r', hu', _, hnl, _⟩ := file_ok_elim cwd uri nl p hok
  rw [hu] at hu'
  cases hu'
  exact hnl

/-- C7 witness: instantiating the netloc characterization on the UNC
example. -/
theorem c7_witness :
    (some (strB "server") : Option Bytes) =
      (if (strB "server" : Bytes) = [] then none else some (strB "server")) :=
  c7_theorem.1 (strB "/") (strB "file://server/share/doc.txt")
    (some (strB "server")) (strB "/share/doc.txt")
    ⟨strB "file", strB "server", strB "/share/doc.txt", [], []⟩ rfl rfl

/-! ## Normalization lemmas for absolute paths -/

theorem splitOnByte_mem_no_sep (sep : Nat) : ∀ (s : Bytes) (x : Bytes),
    x ∈ splitOnByte sep s → x.contains sep = false := by
  intro s
  induction s with
  | nil =>
    intro x hx
    simp only [splitOnByte, List.mem_singleton] at hx
    subst hx
    rfl
  | cons c rest ih =>
    intro x hx
    by_cases hc : (c == sep) = true
    · rw [splitOnByte, if_pos hc] at hx
      rcases List.mem_cons.mp hx with h | h
      · subst h
        rfl
      · exact ih x h
    · rw [splitOnByte, if_neg hc] at hx
      have hcne : ¬ sep = c := by
        intro he
        subst he
        simp at hc
      cases hsp : splitOnByte sep rest with
      | nil =>
        rw [hsp] at hx
        simp only [List.mem_singleton] at hx
        subst hx
        simp [hcne]
      | cons s ss =>
        rw [hsp] at hx
        rcases List.mem_cons.mp hx with h | h
        · subst h
          have hs : s.contains sep = false := ih s (by rw [hsp]; simp)
          simp at hs ⊢
          exact ⟨hcne, hs⟩
        · exact ih x (by rw [hsp]; simp [h])

theorem normLoop_nil (i : Bool) (acc : List Bytes) :
    normLoop i [] acc = acc.reverse := rfl

theorem normLoop_cons (i : Bool) (comp : Bytes) (rest acc : List Bytes) :
    normLoop i (comp :: rest) acc =
      if comp = [] ∨ comp = [46] then normLoop i rest acc
      else if comp ≠ [46, 46] ∨ (i = false ∧ acc = []) ∨
              acc.head? = some [46, 46] then
        normLoop i rest (comp :: acc)
      else
        match acc with
        | [] => normLoop i rest []
        | _ :: accTail => normLoop i rest accTail := rfl

theorem normLoop_mem : ∀ (l acc : List Bytes),
    (∀ x ∈ l, x.contains 47 = false) →
    (∀ x ∈ acc, x ≠ [] ∧ x ≠ [46] ∧ x ≠ [46, 46] ∧ x.contains 47 = false) →
    ∀ y ∈ normLoop true l acc,
      y ≠ [] ∧ y ≠ [46] ∧ y ≠ [46, 46] ∧ y.contains 47 = false := by
  intro l
  induction l with
  | nil =>
    intro acc _ hacc y hy
    rw [normLoop_nil] at hy
    exact hacc y (List.mem_reverse.mp hy)
  | cons comp rest ih =>
    intro acc hl hacc y hy
    rw [normLoop_cons] at hy
    by_cases h1 : comp = [] ∨ comp = [46]
    · rw [if_pos h1] at hy
      exact ih acc (fun x hx => hl x (List.mem_cons_of_mem comp hx)) hacc y hy
    · rw [if_neg h1] at hy
      push_neg at h1
      by_cases h2 : comp ≠ [46, 46] ∨ (true = false ∧ acc = []) ∨
          acc.head? = some [46, 46]
      · rw [if_pos h2] at hy
        have hcomp : comp ≠ [46, 46] := by
          rcases h2 with h | h | h
          · exact h
          · exact absurd h.1 (by simp)
          · exfalso
            rcases acc with _ | ⟨a0, at0⟩
            · simp at h
            · have ha0 := (hacc a0 (by simp)).2.2.1
              simp only [List.head?_cons, Option.some.injEq] at h
              exact ha0 h
        refine ih (comp :: acc) (fun x hx => hl x (List.mem_cons_of_mem comp hx)) ?_ y hy
        intro x hx
        rcases List.mem_cons.mp hx with hx | hx
        · subst hx
          exact ⟨h1.1, h1.2, hcomp, hl x (by simp)⟩
        · exact hacc x hx
      · rw [if_neg h2] at hy
        rcases acc with _ | ⟨a0, at0⟩
        · exact ih [] (fun x hx => hl x (List.mem_cons_of_mem comp hx)) (by simp) y hy
        · exact ih at0 (fun x hx => hl x (List.mem_cons_of_mem comp hx))
            (fun x hx => hacc x (List.mem_cons_of_mem a0 hx)) y hy

theorem splitOnByte_append_sep (sep : Nat) (x : Bytes) : ∀ y : Bytes,
    x.contains sep = false →
    splitOnByte sep (x ++ sep :: y) = x :: splitOnByte sep y := by
  induction x with
  | nil =>
    intro y _
    rw [List.nil_append, splitOnByte, if_pos (by simp)]
  | cons c cs ih =>
    intro y hx
    have hprop : ¬ (sep = c ∨ sep ∈ cs) := by simpa using hx
    push_neg at hprop
    have hcne : (c == sep) = false :=
      beq_eq_false_iff_ne.mpr (fun he => hprop.1 he.symm)
    have hcs : cs.contains sep = false := by
      simp
      exact hprop.2
    rw [List.cons_append, splitOnByte, if_neg (by simp [hcne]), ih y hcs]

theorem splitOnByte_no_sep (sep : Nat) : ∀ x : Bytes,
    x.contains sep = false → splitOnByte sep x = [x] := by
  intro x
  induction x with
  | nil => intro _; rfl
  | cons c cs ih =>
    intro hx
    have hprop : ¬ (sep = c ∨ sep ∈ cs) := by simpa using hx
    push_neg at hprop
    have hcne : (c == sep) = false :=
      beq_eq_false_iff_ne.mpr (fun he => hprop.1 he.symm)
    have hcs : cs.contains sep = false := by
      simp
      exact hprop.2
    rw [splitOnByte, if_neg (by simp [hcne]), ih hcs]

theorem splitOnByte_joinWith (sep : Nat) : ∀ cs : List Bytes, cs ≠ [] →
    (∀ x ∈ cs, x.contains sep = false) →
    splitOnByte sep (joinWith sep cs) = cs := by
  intro cs
  induction cs with
  | nil => intro h _; exact absurd rfl h
  | cons c rest ih =>
    intro _ hall
    cases rest with
    | nil => exact splitOnByte_no_sep sep c (hall c (by simp))
    | cons c2 rest2 =>
      have hjw : joinWith sep (c :: c2 :: rest2) =
          c ++ sep :: joinWith sep (c2 :: rest2) := rfl
      rw [hjw, splitOnByte_append_sep sep c _ (hall c (by simp)),
        ih (List.cons_ne_nil c2 rest2) (fun x hx => hall x (List.mem_cons_of_mem c hx))]

theorem normpath_piece (comps : List Bytes) (n : Nat) (hn : n = 1 ∨ n = 2)
    (hcomps : ∀ x ∈ comps, x.contains 47 = false) :
    (List.replicate n 47 ++ joinWith 47 (normLoop true comps [])).take 1 = [47] ∧
    ∀ x ∈ splitOnByte 47 (List.replicate n 47 ++ joinWith 47 (normLoop true comps [])),
      x ≠ [46] ∧ x ≠ [46, 46] := by
  have hQ := normLoop_mem comps [] hcomps (by simp)
  have htail : ∀ x ∈ splitOnByte 47 (joinWith 47 (normLoop true comps [])),
      x ≠ [46] ∧ x ≠ [46, 46] := by
    cases hnc : normLoop true comps [] with
    | nil =>
      intro x hx
      simp only [joinWith, splitOnByte, List.mem_singleton] at hx
      subst hx
      exact ⟨by simp, by simp⟩
    | cons c cs =>
      rw [splitOnByte_joinWith 47 (c :: cs) (List.cons_ne_nil c cs)
        (fun x hx => (hQ x (by rw [hnc]; exact hx)).2.2.2)]
      intro x hx
      have hx2 := hQ x (by rw [hnc]; exact hx)
      exact ⟨hx2.2.1, hx2.2.2.1⟩
  rcases hn with rfl | rfl
  · refine ⟨rfl, ?_⟩
    have hsplit :
        splitOnByte 47 (List.replicate 1 47 ++ joinWith 47 (normLoop true comps [])) =
          [] :: splitOnByte 47 (joinWith 47 (normLoop true comps [])) := by
      show splitOnByte 47 (47 :: joinWith 47 (normLoop true comps [])) = _
      rw [splitOnByte, if_pos (by simp)]
    rw [hsplit]
    intro x hx
    rcases List.mem_cons.mp hx with h | h
    · subst h
      exact ⟨by simp, by simp⟩
    · exact htail x h
  · refine ⟨rfl, ?_⟩
    have hsplit :
        splitOnByte 47 (List.replicate 2 47 ++ joinWith 47 (normLoop true comps [])) =
          [] :: [] :: splitOnByte 47 (joinWith 47 (normLoop true comps [])) := by
      show splitOnByte 47 (47 :: 47 :: joinWith 47 (normLoop true comps [])) = _
      rw [splitOnByte, if_pos (by simp), splitOnByte, if_pos (by simp)]
    rw [hsplit]
    intro x hx
    rcases List.mem_cons.mp hx with h | h
    · subst h
      exact ⟨by simp, by simp⟩
    rcases List.mem_cons.mp h with h2 | h2
    · subst h2
      exact ⟨by simp, by simp⟩
    · exact htail x h2

theorem normpath_eq_two (q : Bytes) (hne : q ≠ []) (h1 : q.take 1 = [47])
    (h2 : q.take 2 = [47, 47] ∧ q.take 3 ≠ [47, 47, 47]) :
    normpath q =
      (if (List.replicate 2 47 ++ joinWith 47 (normLoop true (splitOnByte 47 q) [])) = []
       then [46]
       else List.replicate 2 47 ++ joinWith 47 (normLoop true (splitOnByte 47 q) [])) := by
  unfold normpath
  rw [if_neg hne, if_pos h1, if_pos h2]
  rfl

theorem normpath_eq_one (q : Bytes) (hne : q ≠ []) (h1 : q.take 1 = [47])
    (h2 : ¬ (q.take 2 = [47, 47] ∧ q.take 3 ≠ [47, 47, 47])) :
    normpath q =
      (if (List.replicate 1 47 ++ joinWith 47 (normLoop true (splitOnByte 47 q) [])) = []
       then [46]
       else List.replicate 1 47 ++ joinWith 47 (normLoop true (splitOnByte 47 q) [])) := by
  unfold normpath
  rw [if_neg hne, if_pos h1, if_neg h2]
  rfl

theorem normpath_abs (q : Bytes) (hq : q.take 1 = [47]) :
    (normpath q).take 1 = [47] ∧
    ∀ x ∈ splitOnByte 47 (normpath q), x ≠ [46] ∧ x ≠ [46, 46] := by
  have hqne : q ≠ [] := by
    intro h
    rw [h] at hq
    simp at hq
  have hcomps : ∀ x ∈ splitOnByte 47 q, x.contains 47 = false :=
    fun x hx => splitOnByte_mem_no_sep 47 q x hx
  by_cases h2 : q.take 2 = [47, 47] ∧ q.take 3 ≠ [47, 47, 47]
  · rw [normpath_eq_two q hqne hq h2]
    have hpiece := normpath_piece (splitOnByte 47 q) 2 (Or.inr rfl) hcomps
    have hJne :
        (List.replicate 2 47 ++ joinWith 47 (normLoop true (splitOnByte 47 q) [])) ≠ [] := by
      simp
    rw [if_neg hJne]
    exact hpiece
  · rw [normpath_eq_one q hqne hq h2]
    have hpiece := normpath_piece (splitOnByte 47 q) 1 (Or.inl rfl) hcomps
    have hJne :
        (List.replicate 1 47 ++ joinWith 47 (normLoop true (splitOnByte 47 q) [])) ≠ [] := by
      simp
    rw [if_neg hJne]
    exact hpiece

theorem abspath_abs (cwd q : Bytes) (hcwd : cwd.take 1 = [47]) :
    (abspath cwd q).take 1 = [47] ∧
    ∀ x ∈ splitOnByte 47 (abspath cwd q), x ≠ [46] ∧ x ≠ [46, 46] := by
  unfold abspath
  by_cases hq : isabs q = true
  · rw [if_pos hq]
    exact normpath_abs q (by simpa [isabs] using hq)
  · rw [if_neg hq]
    apply normpath_abs
    unfold pathJoin
    have hq1 : ¬ q.take 1 = [47] := by simpa [isabs] using hq
    rw [if_neg hq1]
    obtain ⟨cwdtl, rfl⟩ : ∃ t, cwd = 47 :: t := by
      rcases cwd with _ | ⟨c0, ct⟩
      · simp at hcwd
      · simp at hcwd
        exact ⟨ct, by rw [hcwd]⟩
    by_cases hc2 : (47 :: cwdtl : Bytes) = [] ∨ (47 :: cwdtl).getLast? = some 47
    · rw [if_pos hc2]
      rfl
    · rw [if_neg hc2]
      rfl

/-! ## Claim theorems: the file-URI decoder (path) -/

/-- C8: in every successful decode from an absolute working directory,
the returned path is the percent-decoded URI path made absolute against
the working directory and lexically normalized — it starts with a slash
and none of its slash-separated components is a dot or dotdot — and it
equals `abspath cwd (percentDecode path-component)` exactly.  The spec's
`file:///tmp/a%20b.txt` example decodes `%20` to a space, and a
relative-path example is resolved against the working directory with the
dotdot collapsed. -/
theorem c8_theorem :
    (∀ cwd uri nl p, isabs cwd = true →
      file_uri_to_path cwd uri = .ok (nl, p) →
      isabs p = true ∧
      (∀ x ∈ splitOnByte 47 p, x ≠ [46] ∧ x ≠ [46, 46]) ∧
      (∀ r, urlsplit uri = .ok r → p = abspath cwd (percentDecode r.path))) ∧
    file_uri_to_path (strB "/cwd") (strB "file:///tmp/a%20b.txt") =
      .ok (none, strB "/tmp/a b.txt") ∧
    file_uri_to_path (strB "/base") (strB "file:x/../y/z") =
      .ok (none, strB "/base/y/z") := by
  refine ⟨?_, rfl, rfl⟩
  intro cwd uri nl p hcwd hok
  obtain ⟨r, hu, hsch, hnl, hp⟩ := file_ok_elim cwd uri nl p hok
  have habs := abspath_abs cwd (percentDecode r.path) (by simpa [isabs] using hcwd)
  subst hp
  refine ⟨by simpa [isabs] using habs.1, habs.2, ?_⟩
  intro r' hu'
  rw [hu] at hu'
  cases hu'
  rfl

/-- C8 witness: instantiating the path characterization on the
relative-path example resolved against `/base`. -/
theorem c8_witness :
    isabs (strB "/base/y/z") = true :=
  (c8_theorem.1 (strB "/base") (strB "file:x/../y/z") none (strB "/base/y/z")
    rfl rfl).1

/-! ## Case-insensitivity of the scheme comparison -/

theorem asciiLower_file_char (a t : Nat) (h : asciiLower a = t) :
    a = t ∨ (a + 32 = t ∧ 65 ≤ a ∧ a ≤ 90) := by
  unfold asciiLower at h
  by_cases hr : 65 ≤ a ∧ a ≤ 90
  · rw [if_pos hr] at h
    exact Or.inr ⟨h, hr.1, hr.2⟩
  · rw [if_neg hr] at h
    exact Or.inl h

theorem scheme_char_facts (a : Nat)
    (h : a = 102 ∨ a = 70 ∨ a = 105 ∨ a = 73 ∨ a = 108 ∨ a = 76 ∨
         a = 101 ∨ a = 69) :
    decide (a ≤ 32) = false ∧ ((a == 9 || a == 13 || a == 10) = false) ∧
    ((a == 58) = false) ∧ isSchemeChar a = true ∧ isAsciiAlpha a = true := by
  rcases h with rfl | rfl | rfl | rfl | rfl | rfl | rfl | rfl <;>
    exact ⟨rfl, rfl, rfl, rfl, rfl⟩

theorem urlsplitPre_scheme (a b c d : Nat) (rest : Bytes)
    (ha : decide (a ≤ 32) = false ∧ ((a == 9 || a == 13 || a == 10) = false) ∧
      ((a == 58) = false) ∧ isSchemeChar a = true ∧ isAsciiAlpha a = true)
    (hb : decide (b ≤ 32) = false ∧ ((b == 9 || b == 13 || b == 10) = false) ∧
      ((b == 58) = false) ∧ isSchemeChar b = true ∧ isAsciiAlpha b = true)
    (hc : decide (c ≤ 32) = false ∧ ((c == 9 || c == 13 || c == 10) = false) ∧
      ((c == 58) = false) ∧ isSchemeChar c = true ∧ isAsciiAlpha c = true)
    (hd : decide (d ≤ 32) = false ∧ ((d == 9 || d == 13 || d == 10) = false) ∧
      ((d == 58) = false) ∧ isSchemeChar d = true ∧ isAsciiAlpha d = true) :
    splitScheme (urlsplitPre (a :: b :: c :: d :: 58 :: rest)) =
      ([asciiLower a, asciiLower b, asciiLower c, asciiLower d],
       rest.filter (fun x => !(x == 9 || x == 13 || x == 10))) := by
  have hpre : urlsplitPre (a :: b :: c :: d :: 58 :: rest) =
      a :: b :: c :: d :: 58 :: rest.filter (fun x => !(x == 9 || x == 13 || x == 10)) := by
    unfold urlsplitPre
    rw [List.dropWhile_cons]
    rw [if_neg (by simp [ha.1])]
    simp only [List.filter_cons, ha.2.1, hb.2.1, hc.2.1, hd.2.1]
    simp
  rw [hpre]
  have htw : (a :: b :: c :: d :: 58 ::
        rest.filter (fun x => !(x == 9 || x == 13 || x == 10))).takeWhile
        (fun x => !(x == 58)) = [a, b, c, d] := by
    simp only [List.takeWhile_cons, ha.2.2.1, hb.2.2.1, hc.2.2.1, hd.2.2.1]
    simp
  have hdw : (a :: b :: c :: d :: 58 ::
        rest.filter (fun x => !(x == 9 || x == 13 || x == 10))).dropWhile
        (fun x => !(x == 58)) =
      58 :: rest.filter (fun x => !(x == 9 || x == 13 || x == 10)) := by
    simp only [List.dropWhile_cons, ha.2.2.1, hb.2.2.1, hc.2.2.1, hd.2.2.1]
    simp
  unfold splitScheme
  rw [htw, hdw]
  rw [if_neg (by simp)]
  rw [if_neg (by simp)]
  rw [if_pos (by simp [List.headI, ha.2.2.2.2, ha.2.2.2.1, hb.2.2.2.1,
    hc.2.2.2.1, hd.2.2.2.1])]
  rfl

/-- C10: the file-URI decoder never fails with InvalidScheme on a URI
whose scheme spelling lowercases to `file`, because `urlsplit` lowercases
the scheme before `file_uri_to_path` compares it; scheme validation is
effectively case-insensitive, and `FILE:///tmp/x` decodes successfully. -/
theorem c10_theorem :
    (∀ cwd s rest, s.map asciiLower = strB "file" →
      file_uri_to_path cwd (s ++ 58 :: rest) ≠ .error .invalidScheme) ∧
    file_uri_to_path (strB "/") (strB "FILE:///tmp/x") =
      .ok (none, strB "/tmp/x") := by
  refine ⟨?_, ?_⟩
  swap
  · rfl
  intro cwd s rest hlow hcontra
  have hlit : strB "file" = [102, 105, 108, 101] := rfl
  rw [hlit] at hlow
  rcases s with _ | ⟨a, s⟩
  · simp at hlow
  rcases s with _ | ⟨b, s⟩
  · simp at hlow
  rcases s with _ | ⟨c, s⟩
  · simp at hlow
  rcases s with _ | ⟨d, s⟩
  · simp at hlow
  rcases s with _ | ⟨e, s⟩
  swap
  · simp at hlow
  simp only [List.map_cons, List.map_nil, List.cons.injEq, and_true] at hlow
  obtain ⟨h1, h2, h3, h4⟩ := hlow
  have ha : a = 102 ∨ a = 70 := by
    rcases asciiLower_file_char a 102 h1 with h | h
    · exact Or.inl h
    · exact Or.inr (by omega)
  have hbb : b = 105 ∨ b = 73 := by
    rcases asciiLower_file_char b 105 h2 with h | h
    · exact Or.inl h
    · exact Or.inr (by omega)
  have hcc : c = 108 ∨ c = 76 := by
    rcases asciiLower_file_char c 108 h3 with h | h
    · exact Or.inl h
    · exact Or.inr (by omega)
  have hdd : d = 101 ∨ d = 69 := by
    rcases asciiLower_file_char d 101 h4 with h | h
    · exact Or.inl h
    · exact Or.inr (by omega)
  have fa := scheme_char_facts a
    (ha.elim (fun h => Or.inl h) (fun h => Or.inr (Or.inl h)))
  have fb := scheme_char_facts b
    (hbb.elim (fun h => Or.inr (Or.inr (Or.inl h)))
      (fun h => Or.inr (Or.inr (Or.inr (Or.inl h)))))
  have fc := scheme_char_facts c
    (hcc.elim (fun h => Or.inr (Or.inr (Or.inr (Or.inr (Or.inl h)))))
      (fun h => Or.inr (Or.inr (Or.inr (Or.inr (Or.inr (Or.inl h)))))))
  have fd := scheme_char_facts d
    (hdd.elim
      (fun h => Or.inr (Or.inr (Or.inr (Or.inr (Or.inr (Or.inr (Or.inl h)))))))
      (fun h => Or.inr (Or.inr (Or.inr (Or.inr (Or.inr (Or.inr (Or.inr h))))))))
  have happ : ([a, b, c, d] : Bytes) ++ 58 :: rest = a :: b :: c :: d :: 58 :: rest := by
    simp
  rw [happ] at hcontra
  have hsch : splitScheme (urlsplitPre (a :: b :: c :: d :: 58 :: rest)) =
      ([102, 105, 108, 101],
       rest.filter (fun x => !(x == 9 || x == 13 || x == 10))) := by
    rw [urlsplitPre_scheme a b c d rest fa fb fc fd, h1, h2, h3, h4]
  cases hu : urlsplit (a :: b :: c :: d :: 58 :: rest) with
  | error e =>
    have he := urlsplit_error_elim _ e hu
    rw [file_error_of_urlsplit cwd _ e hu] at hcontra
    subst he
    cases hcontra
  | ok r =>
    have hschr : r.scheme = strB "file" := by
      rw [urlsplit_scheme_of _ r hu, hsch, hlit]
    rw [file_ok_intro cwd _ r hu hschr] at hcontra
    cases hcontra

/-- C10 witness: instantiating the never-InvalidScheme statement on the
mixed-case scheme `FiLe`. -/
theorem c10_witness :
    file_uri_to_path (strB "/") (strB "FiLe" ++ 58 :: strB "//h/p") ≠
      .error .invalidScheme :=
  c10_theorem.1 (strB "/") (strB "FiLe") (strB "//h/p") rfl
